import Mathlib

/-!
Verification development for the NTSA `util_tools` inlist-handling utilities.

The Python sources under `util_tools/inlist_handler/` are shallowly embedded
here on `List Char` strings:

* `inlist_handler.py` — `InlistHandler`: a shlex-based lexer for the custom
  key = value inlist dialect (comment char `%`, extended word characters,
  quote handling), the substring-heuristic type inferencer `_typer`, the
  defaults-path regex `(.*)\/.*\/(.*)\..*`, and the defaults-overlay merge in
  `get_inlist_values`.
* `toml_inlist_handler.py` — `TomlInlistHandler`: the recursive empty-table
  to `None` normalisation `_adjust_for_none`.

Python floats are modelled as exact rationals (all literals appearing in the
claims are exactly representable).  `ast.literal_eval` and the builtin `int`
are modelled by dedicated literal parsers restricted to the token grammar the
shlex configuration can actually produce (no whitespace inside unquoted
tokens).  Fallible operations return `Option` (`Option.none` = the Python
call raised).
-/

namespace NTSA

/-- The single-quote character `'` (code point 39). -/
def quoteS : Char := Char.ofNat 39

/-- The double-quote character (code point 34). -/
def quoteD : Char := Char.ofNat 34

/-- Python values produced by the inlist type inferencer: the result type of
`InlistHandler._typer`.  Floats are modelled as exact rationals. -/
inductive PyValue where
| str : List Char → PyValue
| bool : Bool → PyValue
| none : PyValue
| int : Int → PyValue
| float : ℚ → PyValue
| list : List PyValue → PyValue
| tuple : List PyValue → PyValue

/-- Does `small` occur as a prefix of `big`?  (Model of Python `str.startswith`,
used to build substring containment.) -/
def startsWithL : List Char → List Char → Bool
| [], _ => true
| _ :: _, [] => false
| a :: as, b :: bs => a = b && startsWithL as bs

/-- Does `needle` occur as a contiguous substring of `hay`?  Model of the
Python expression `needle in hay` on strings. -/
def containsSub (needle : List Char) : List Char → Bool
| [] => startsWithL needle []
| c :: rest => startsWithL needle (c :: rest) || containsSub needle rest

/-- Model of Python `s.strip(c)` for a single-character argument: remove every
leading and every trailing occurrence of `c`. -/
def pyStrip (c : Char) (s : List Char) : List Char :=
  ((s.dropWhile (fun d => d = c)).reverse.dropWhile (fun d => d = c)).reverse

/-- `string_check` from `InlistHandler`: does the token contain a quote
character (`'` or `"`)? -/
def string_check (s : List Char) : Bool :=
  s.any (fun c => c = quoteS || c = quoteD)

/-- `bool_check` from `InlistHandler`: does the token contain any of the
substrings `False`, `FALSE`, `True`, `TRUE`? -/
def bool_check (s : List Char) : Bool :=
  containsSub ("False".data) s || containsSub ("FALSE".data) s ||
    containsSub ("True".data) s || containsSub ("TRUE".data) s

/-- `bool_false_check` from `InlistHandler`: does the token contain `False` or
`FALSE` as a substring? -/
def bool_false_check (s : List Char) : Bool :=
  containsSub ("False".data) s || containsSub ("FALSE".data) s

/-- `list_check` from `InlistHandler`: does the token contain both `[` and `]`? -/
def list_check (s : List Char) : Bool :=
  s.any (fun c => c = '[') && s.any (fun c => c = ']')

/-- `tuple_check` from `InlistHandler`: does the token contain both `(` and `)`? -/
def tuple_check (s : List Char) : Bool :=
  s.any (fun c => c = '(') && s.any (fun c => c = ')')

/-- `none_check` from `InlistHandler`: an `all` check over the single value
`None`, i.e. substring containment of `None` (not an exact match). -/
def none_check (s : List Char) : Bool :=
  containsSub ("None".data) s

/-- `float_check` from `InlistHandler`: does the token contain a decimal dot? -/
def float_check (s : List Char) : Bool :=
  s.any (fun c => c = '.')

/-- Model of `compiled_float_regex.match`: the compiled pattern
`\d+[eE]-*\d+` applied with `re.match`, i.e. anchored at the start of the
token only (a prefix match), with any number of minus signs. -/
def floatRegexMatch (s : List Char) : Bool :=
  match s with
  | c :: rest =>
    c.isDigit &&
      (match (rest.dropWhile Char.isDigit) with
       | e :: r2 =>
         (e = 'e' || e = 'E') &&
           (match r2.dropWhile (fun d => d = '-') with
            | d :: _ => d.isDigit
            | [] => false)
       | [] => false)
  | [] => false

/-- Digit sequence with single underscores allowed between digits, as in
Python numeric tokens; the first digit has already been consumed.  Returns the
accepted digits (underscores dropped) and the unconsumed remainder. -/
def digitsTail : List Char → (List Char × List Char)
| c :: rest =>
  if c.isDigit then
    let p := digitsTail rest
    (c :: p.1, p.2)
  else if c = '_' then
    match rest with
    | d :: rest2 =>
      if d.isDigit then
        let p := digitsTail rest2
        (d :: p.1, p.2)
      else ([], c :: rest)
    | [] => ([], [c])
  else ([], c :: rest)
| [] => ([], [])

/-- A Python `digitpart`: one or more digits, single underscores permitted
between digits.  Returns the digits and the remainder, or `Option.none` when
the input does not start with a digit. -/
def digitpart (s : List Char) : Option (List Char × List Char) :=
  match s with
  | c :: rest =>
    if c.isDigit then
      let p := digitsTail rest
      some (c :: p.1, p.2)
    else Option.none
  | [] => Option.none

/-- Numeric value of a digit string. -/
def natOfDigits (ds : List Char) : Nat :=
  ds.foldl (fun n c => 10 * n + (c.toNat - 48)) 0

/-- Exponent suffix of a Python float literal: `e` or `E`, an optional sign,
then a digitpart. -/
def parseExponent (s : List Char) : Option (Int × List Char) :=
  match s with
  | c :: rest =>
    if c = 'e' || c = 'E' then
      match rest with
      | d :: r2 =>
        if d = '-' then
          (digitpart r2).map (fun p => (-(natOfDigits p.1 : Int), p.2))
        else if d = '+' then
          (digitpart r2).map (fun p => ((natOfDigits p.1 : Int), p.2))
        else (digitpart rest).map (fun p => ((natOfDigits p.1 : Int), p.2))
      | [] => Option.none
    else Option.none
  | [] => Option.none

/-- Exact rational value of the float literal with integer-part digits `ip`,
fraction digits `fp` and decimal exponent `ex`:
`(ip.fp) * 10 ^ ex` as a normalised rational. -/
def mkFloat (ip fp : List Char) (ex : Int) : ℚ :=
  let den : Nat := 10 ^ fp.length
  let m : Int := (natOfDigits ip : Int) * (den : Int) + (natOfDigits fp : Int)
  if 0 ≤ ex then mkRat (m * ((10 ^ ex.toNat : Nat) : Int)) den
  else mkRat m (den * 10 ^ (-ex).toNat)

/-- One unsigned Python numeric literal (as accepted by `ast.literal_eval`):
an integer literal (leading zeros only allowed on a literal zero) or a float
literal (`digitpart . [digitpart] [exp]`, `. digitpart [exp]`,
`digitpart exp`).  Returns the value and the unconsumed remainder. -/
def parseNumber (s : List Char) : Option (PyValue × List Char) :=
  match digitpart s with
  | some (ip, r1) =>
    match r1 with
    | '.' :: r2 =>
      (match digitpart r2 with
       | some (fp, r3) =>
         (match parseExponent r3 with
          | some (ex, r4) => some (.float (mkFloat ip fp ex), r4)
          | Option.none => some (.float (mkFloat ip fp 0), r3))
       | Option.none =>
         (match parseExponent r2 with
          | some (ex, r4) => some (.float (mkFloat ip [] ex), r4)
          | Option.none => some (.float (mkFloat ip [] 0), r2)))
    | _ =>
      (match parseExponent r1 with
       | some (ex, r2) => some (.float (mkFloat ip [] ex), r2)
       | Option.none =>
         if ip.head? = some '0' && ip.any (fun c => !(c = '0')) then Option.none
         else some (.int (natOfDigits ip : Int), r1))
  | Option.none =>
    match s with
    | '.' :: r2 =>
      (match digitpart r2 with
       | some (fp, r3) =>
         (match parseExponent r3 with
          | some (ex, r4) => some (.float (mkFloat [] fp ex), r4)
          | Option.none => some (.float (mkFloat [] fp 0), r3))
       | Option.none => Option.none)
    | _ => Option.none

/-- Negation of a numeric literal, for a leading `-` sign (Python
`literal_eval` applies a single unary sign to numbers only). -/
def negVal : PyValue → PyValue
| .int n => .int (-n)
| .float q => .float (-q)
| v => v

/-- Scan the body of a Python string literal up to the closing quote `q`.
Escape sequences are not modelled (no backslash appears in any inlist token
considered here). -/
def scanStr (q : Char) : List Char → Option (List Char × List Char)
| [] => Option.none
| c :: rest =>
  if c = q then some ([], rest)
  else (scanStr q rest).map (fun p => (c :: p.1, p.2))

/-- One literal value, as accepted by the model of `ast.literal_eval`:
`None`, `True`, `False`, a quoted string, a bracketed list, a parenthesised
tuple (where `(v)` is just `v`), or a (possibly signed) number.  `items`
parses the element sequence of a bracketed or parenthesised literal (it is
the next-lower fuel level of `parseItems`). -/
def parseValStep (items : List Char → Option (List PyValue × Bool × List Char)) :
    List Char → Option (PyValue × List Char)
| 'N' :: 'o' :: 'n' :: 'e' :: rest => some (PyValue.none, rest)
| 'T' :: 'r' :: 'u' :: 'e' :: rest => some (.bool true, rest)
| 'F' :: 'a' :: 'l' :: 's' :: 'e' :: rest => some (.bool false, rest)
| '[' :: ']' :: rest => some (.list [], rest)
| '[' :: rest =>
  (match items rest with
   | some (vs, _, ']' :: r3) => some (.list vs, r3)
   | _ => Option.none)
| '(' :: ')' :: rest => some (.tuple [], rest)
| '(' :: rest =>
  (match items rest with
   | some ([v], false, ')' :: r3) => some (v, r3)
   | some (vs, _, ')' :: r3) => some (.tuple vs, r3)
   | _ => Option.none)
| '-' :: rest => (parseNumber rest).map (fun p => (negVal p.1, p.2))
| '+' :: rest => parseNumber rest
| c :: rest =>
  if c = quoteS || c = quoteD then
    (scanStr c rest).map (fun p => (PyValue.str p.1, p.2))
  else parseNumber (c :: rest)
| [] => Option.none

/-- A comma-separated sequence of literal values (`val` parses one value,
`items` the remaining sequence).  Returns the values, a flag recording
whether a trailing comma was present (it makes a one-element sequence a
tuple), and the unconsumed remainder. -/
def parseItemsStep (val : List Char → Option (PyValue × List Char))
    (items : List Char → Option (List PyValue × Bool × List Char))
    (s : List Char) : Option (List PyValue × Bool × List Char) :=
  match val s with
  | some (v, ',' :: r2) =>
    (match r2 with
     | ']' :: _ => some ([v], true, r2)
     | ')' :: _ => some ([v], true, r2)
     | [] => some ([v], true, r2)
     | _ =>
       (match items r2 with
        | some (vs, t, r3) => some (v :: vs, t, r3)
        | Option.none => Option.none))
  | some (v, r) => some ([v], false, r)
  | Option.none => Option.none

/-- The value/sequence parser pair at each fuel level: fuel 0 always fails,
and each level ties `parseValStep` and `parseItemsStep` to the level below.
Fuel bounds the recursion depth; `literal_eval` supplies ample fuel. -/
def parsers : Nat →
    (List Char → Option (PyValue × List Char)) ×
    (List Char → Option (List PyValue × Bool × List Char))
| 0 => (fun _ => Option.none, fun _ => Option.none)
| fuel + 1 =>
  (parseValStep (parsers fuel).2,
   parseItemsStep (parsers fuel).1 (parsers fuel).2)

/-- One literal value at the given fuel level. -/
def parseVal (fuel : Nat) (s : List Char) : Option (PyValue × List Char) :=
  (parsers fuel).1 s

/-- A comma-separated value sequence at the given fuel level. -/
def parseItems (fuel : Nat) (s : List Char) :
    Option (List PyValue × Bool × List Char) :=
  (parsers fuel).2 s

/-- Model of `ast.literal_eval` on a full token: a bare top-level
comma-separated sequence denotes a tuple (Python expression-list semantics);
a single value without trailing comma is that value.  The whole token must be
consumed. -/
def literal_eval (s : List Char) : Option PyValue :=
  match parseItems (2 * s.length + 2) s with
  | some ([v], false, []) => some v
  | some (vs, _, []) => some (.tuple vs)
  | _ => Option.none

/-- Model of the builtin `int(x)` call on a token: an optional sign followed
by a digitpart consuming the whole token (leading zeros allowed). -/
def pyInt (s : List Char) : Option Int :=
  match s with
  | '-' :: rest =>
    (match digitpart rest with
     | some (ds, []) => some (-(natOfDigits ds : Int))
     | _ => Option.none)
  | '+' :: rest =>
    (match digitpart rest with
     | some (ds, []) => some ((natOfDigits ds : Int))
     | _ => Option.none)
  | _ =>
    (match digitpart s with
     | some (ds, []) => some ((natOfDigits ds : Int))
     | _ => Option.none)

/-- `InlistHandler._typer`: infer a Python value from a raw token, following
the source's check order — quotes (string / list of strings), booleans,
`None`, list, tuple, float (dot or exponent regex), else integer. -/
def typer (s : List Char) : Option PyValue :=
  if string_check s then
    if list_check s then literal_eval s
    else some (.str (pyStrip quoteS (pyStrip quoteD s)))
  else if bool_check s then
    (if bool_false_check s then some (.bool false) else some (.bool true))
  else if none_check s then some PyValue.none
  else if list_check s then literal_eval s
  else if tuple_check s then literal_eval s
  else if float_check s || floatRegexMatch s then literal_eval s
  else (pyInt s).map PyValue.int

/-! ### The shlex lexer, as configured by `InlistHandler._parse_inlist`

`shlex.shlex` is used with its defaults (`posix=False`, no punctuation
chars), `commenters = '%'`, `quotes` = both quote characters, and the word
characters extended with `. - [ ] , ( )`.  The `escape = '\n'` setting is
inert because escape processing only runs in posix mode.  In non-posix mode a
quoted section keeps its delimiters, a comment consumes the rest of the
physical line (also in the middle of a word, whose token keeps building), and
a character that is neither whitespace, comment, word character nor quote is
emitted as a single-character token (via the pushback queue, inlined here).
-/

/-- Word characters after `_parse_inlist` extends the shlex defaults:
ASCII letters, digits, underscore, and `. - [ ] , ( )`. -/
def isWordChar (c : Char) : Bool :=
  c.isAlpha || c.isDigit || c = '_' || c = '.' || c = '-' ||
    c = '[' || c = ']' || c = ',' || c = '(' || c = ')'

/-- The shlex default whitespace set. -/
def isWhite (c : Char) : Bool :=
  c = ' ' || c = '\t' || c = '\r' || c = '\n'

/-- Model of `instream.readline()` inside the lexer: drop the remainder of
the current physical line, including its newline. -/
def dropLine (s : List Char) : List Char :=
  ((s.dropWhile (fun c => !(c = '\n'))).drop 1)

/-- Lexer states: between tokens, inside a word, or inside a quoted section
opened by the given quote character. -/
inductive LexState where
| start : LexState
| word : LexState
| inQuote : Char → LexState

/-- The non-posix shlex token loop.  Returns all tokens up to end of input,
or `Option.none` for the `No closing quotation` error (or fuel exhaustion,
which `lexAll`'s fuel choice makes unreachable). -/
def lexGo : Nat → LexState → List Char → List Char → Option (List (List Char))
| 0, _, _, _ => Option.none
| _ + 1, .start, _, [] => some []
| fuel + 1, .start, _, c :: rest =>
  if isWhite c then lexGo fuel .start [] rest
  else if c = '%' then lexGo fuel .start [] (dropLine rest)
  else if isWordChar c then lexGo fuel .word [c] rest
  else if c = quoteS || c = quoteD then lexGo fuel (.inQuote c) [c] rest
  else (lexGo fuel .start [] rest).map (fun ts => [c] :: ts)
| _ + 1, .word, tok, [] => some [tok]
| fuel + 1, .word, tok, c :: rest =>
  if isWhite c then (lexGo fuel .start [] rest).map (fun ts => tok :: ts)
  else if c = '%' then lexGo fuel .word tok (dropLine rest)
  else if isWordChar c || c = quoteS || c = quoteD then
    lexGo fuel .word (tok ++ [c]) rest
  else (lexGo fuel .start [] rest).map (fun ts => tok :: [c] :: ts)
| _ + 1, .inQuote _, _, [] => Option.none
| fuel + 1, .inQuote q, tok, c :: rest =>
  if c = q then (lexGo fuel .start [] rest).map (fun ts => (tok ++ [c]) :: ts)
  else lexGo fuel (.inQuote q) (tok ++ [c]) rest

/-- All shlex tokens of the input. -/
def lexAll (s : List Char) : Option (List (List Char)) :=
  lexGo (s.length + 1) .start [] s

/-! ### `_parse_inlist` and `get_inlist_values` -/

/-- The inlist mapping: a Python dict, as an insertion-ordered association
list with unique keys maintained by `pyInsert`. -/
abbrev Dict := List (List Char × PyValue)

/-- Python dict assignment `d[k] = v`: update the existing entry in place, or
append a new one. -/
def pyInsert (d : Dict) (k : List Char) (v : PyValue) : Dict :=
  if d.any (fun p => p.1 = k) then
    d.map (fun p => if p.1 = k then (k, v) else p)
  else d ++ [(k, v)]

/-- Python dict lookup `d.get(k)`. -/
def dictGet (k : List Char) (d : Dict) : Option PyValue :=
  (d.find? (fun p => p.1 = k)).map (fun p => p.2)

/-- The parse loop of `_parse_inlist` over the token stream: take a keyword,
discard the next token (the `=`, unchecked), type the third.  When the stream
runs out mid-entry the missing value is the lexer's empty EOF token, whose
typing (`int('')`) fails. -/
def typedEntries : List (List Char) → Option (List (List Char × PyValue))
| [] => some []
| [k] => (typer []).map (fun v => [(k, v)])
| [k, _] => (typer []).map (fun v => [(k, v)])
| k :: _ :: v :: rest =>
  match typer v with
  | some tv =>
    (match typedEntries rest with
     | some es => some ((k, tv) :: es)
     | Option.none => Option.none)
  | Option.none => Option.none

/-- The key/typed-value entries of an inlist text, in file order. -/
def parseEntries (s : List Char) : Option (List (List Char × PyValue)) :=
  match lexAll s with
  | some toks => typedEntries toks
  | Option.none => Option.none

/-- `InlistHandler._parse_inlist`: parse the text and fold the entries into
the supplied dictionary (the mutable `dictionary_inlist` argument).  Any
lexing or typing error propagates (the `except NameError` / `except
TypeError` handlers in the source catch exception types the parse pipeline
never raises; `ValueError` and `SyntaxError` from typing pass through). -/
def parse_inlist (s : List Char) (d : Dict) : Option Dict :=
  (parseEntries s).map (fun es => es.foldl (fun acc kv => pyInsert acc kv.1 kv.2) d)

/-- `InlistHandler.get_inlist_values`, at the level of file contents: parse
the defaults text into a fresh dict, then parse the run text on top of it. -/
def get_inlist_values (defaultsText runText : List Char) : Option Dict :=
  match parse_inlist defaultsText [] with
  | some d => parse_inlist runText d
  | Option.none => Option.none

/-- Model of the source's input preprocessing
`'\n'.join(_inlist.readlines())`: `readlines` keeps each line's trailing
newline and the join inserts one more `\n` between consecutive lines, so
every newline except a final one is doubled. -/
def joinedReadlines : List Char → List Char
| [] => []
| ['\n'] => ['\n']
| '\n' :: rest => '\n' :: '\n' :: joinedReadlines rest
| c :: rest => c :: joinedReadlines rest

/-! ### Defaults resolution (`_get_default_inlist_values`)

`compiled_regex_defaults` is `(.*)\/.*\/(.*)\..*`, applied with `re.match`
(anchored at the start; the trailing `.*` makes the end irrelevant).  Since
`.*` also matches `/` and `.`, the pattern matches exactly when some `/` is
followed by a later `/` which is followed by a later `.`.  Under Python's
leftmost-greedy backtracking the groups are determined by:

* `j` — the last `/` that still has a `.` somewhere after it (consumed by
  the middle `.*\/`),
* `i` — the last `/` before `j` (group 1 is the prefix before position `i`),
* `k` — the last `.` of the whole string (group 2 ends there, by greediness
  of `(.*)\.`; a `.` after `j` exists, so the overall last `.` is after `j`).
-/

/-- Is there a `.` strictly after position `j`? -/
def dotAfter (s : List Char) (j : Nat) : Bool :=
  (List.range s.length).any (fun k => j < k && s.getD k ' ' = '.')

/-- The position consumed by the middle `/` of the pattern: the last slash
with a dot after it. -/
def regexJ (s : List Char) : Option Nat :=
  ((List.range s.length).filter
    (fun j => s.getD j ' ' = '/' && dotAfter s j)).getLast?

/-- The position ending group 1: the last slash before `j`. -/
def regexI (s : List Char) (j : Nat) : Option Nat :=
  ((List.range s.length).filter
    (fun i => i < j && s.getD i ' ' = '/')).getLast?

/-- The position ending group 2: the last dot of the string. -/
def regexK (s : List Char) : Option Nat :=
  ((List.range s.length).filter (fun k => s.getD k ' ' = '.')).getLast?

/-- `InlistHandler._get_default_inlist_values`, up to the path it derives:
`Option.none` models the `NameError` raised when `compiled_regex_defaults`
does not match; otherwise the constructed defaults path
`group(1)/defaults/group(2).defaults` is returned (the source then parses
the file found there with `_parse_inlist`). -/
def get_default_inlist_path (s : List Char) : Option (List Char) :=
  match regexJ s with
  | some j =>
    (match regexI s j with
     | some i =>
       (match regexK s with
        | some k =>
          some ((s.take i) ++ ("/defaults/".data) ++
            ((s.take k).drop (j + 1)) ++ (".defaults".data))
        | Option.none => Option.none)
     | Option.none => Option.none)
  | Option.none => Option.none

/-- The naming-convention pattern as the spec words it: a run-file path of
the shape `dir/subdir/name.ext`, read as: at least two `/` separators and an
extension dot in the final path segment.  (Comparison definition for claim
C6; the code's regex accepts strictly more paths than this.) -/
def specNamingPattern (s : List Char) : Bool :=
  2 ≤ (s.filter (fun c => c = '/')).length &&
    ((s.reverse.takeWhile (fun c => !(c = '/'))).any (fun c => c = '.'))

/-! ### The TOML loader (`toml_inlist_handler.py`) -/

/-- Values of a parsed TOML tree: tables are insertion-ordered key/value
lists; `none` is the value `_adjust_for_none` writes for empty tables.
Scalars beyond strings, integers, rationals and booleans are not needed by
any claim. -/
inductive TomlVal where
| table : List (String × TomlVal) → TomlVal
| arr : List TomlVal → TomlVal
| str : String → TomlVal
| int : Int → TomlVal
| float : ℚ → TomlVal
| bool : Bool → TomlVal
| none : TomlVal

mutual

/-- The transformation `_adjust_for_none` applies to the value of one entry:
an empty table (`val == {}`) becomes `None`; a non-empty table has the same
rule applied to each of its entries in place; anything else — including
arrays and their contents — is left untouched. -/
def adjustEntry : TomlVal → TomlVal
| .table [] => .none
| .table (kv :: kvs) => .table (adjustKVs (kv :: kvs))
| v => v

/-- `_adjust_for_none`'s loop over a table's entries. -/
def adjustKVs : List (String × TomlVal) → List (String × TomlVal)
| [] => []
| (k, v) :: rest => (k, adjustEntry v) :: adjustKVs rest

end

/-- `TomlInlistHandler.get_inlist_values`, from the parse tree the trusted
TOML parser returns: run `_adjust_for_none` over the root table's entries. -/
def toml_get_inlist_values (root : List (String × TomlVal)) :
    List (String × TomlVal) :=
  adjustKVs root

/-! ### The test fixture inlist (`test_inlist_handler.py`) -/

/-- The fixture text `my_text` written to both `test.in` and
`test.defaults`: a leading newline, each line indented by eight spaces, and a
trailing line of eight spaces without a newline. -/
def fixtureText : String :=
  "\n        % Test inlist\n        % Author: John Doe\n        \n" ++
  "        %%%%%%%%%%%%%%%%%%%%%%%%%\n        % set of test arguments %\n" ++
  "        %%%%%%%%%%%%%%%%%%%%%%%%%\n        % bool load checks\n" ++
  "        my_bool = True\n        my_capital_bool = FALSE\n" ++
  "        % int load check\n        my_int = 8\n        % list load check\n" ++
  "        my_list = [2,1,1,1,2]\n        my_list_second = [8.0,7.0,6.0]\n" ++
  "        % string load check\n        my_string = 'this is a string'\n" ++
  "        my_string_second = '/path/to/somewhere'\n" ++
  "        % float load check\n        my_float = 8.0\n" ++
  "        % generic comment load check\n        my_comment_load = 8%7%6\n" ++
  "        "

/-- The mapping the fixture must load to (`expected_output` in the test). -/
def fixtureExpected : Dict :=
  [ ("my_bool".data, .bool true)
  , ("my_capital_bool".data, .bool false)
  , ("my_int".data, .int 8)
  , ("my_list".data, .list [.int 2, .int 1, .int 1, .int 1, .int 2])
  , ("my_list_second".data, .list [.float 8, .float 7, .float 6])
  , ("my_string".data, .str ("this is a string".data))
  , ("my_string_second".data, .str ("/path/to/somewhere".data))
  , ("my_float".data, .float 8)
  , ("my_comment_load".data, .int 8) ]

/-! ### Merge semantics of the dictionary fold -/

/-- The last value bound to `k` in an entry list (later entries win). -/
def lastAssoc : List (List Char × PyValue) → List Char → Option PyValue
| [], _ => Option.none
| kv :: rest, k =>
  match lastAssoc rest k with
  | some v => some v
  | Option.none => if kv.1 = k then some kv.2 else Option.none

theorem dictGet_pyInsert (d : Dict) (k k' : List Char) (v : PyValue) :
    dictGet k (pyInsert d k' v) = if k' = k then some v else dictGet k d := by
  unfold pyInsert dictGet
  cases hany : d.any (fun p => p.1 = k') with
  | true =>
    simp only [if_true]
    rw [List.find?_map]
    have hkey : ((fun p : List Char × PyValue => decide (p.1 = k)) ∘
        fun p => if p.1 = k' then (k', v) else p) =
          (fun p : List Char × PyValue => decide (p.1 = k)) := by
      funext p
      by_cases hp : p.1 = k' <;> simp [hp]
    rw [hkey]
    rcases hf : d.find? (fun p => decide (p.1 = k)) with _ | q
    · rw [hf]
      by_cases hkk : k' = k
      · subst hkk
        exfalso
        rw [List.any_eq_true] at hany
        obtain ⟨p, hp, hpk⟩ := hany
        rw [List.find?_eq_none] at hf
        exact absurd hpk (by simpa using hf p hp)
      · simp [hkk]
    · rw [hf]
      have hq : q.1 = k := by simpa using List.find?_some hf
      by_cases hkk : k' = k
      · subst hkk
        simp [hq]
      · have hqk : ¬ q.1 = k' := fun h => hkk (h.symm.trans hq)
        simp [hqk, hkk]
  | false =>
    simp only [Bool.false_eq_true, if_false]
    rw [List.find?_append]
    rcases hf : d.find? (fun p => decide (p.1 = k)) with _ | q
    · rw [hf]
      by_cases hkk : k' = k
      · subst hkk
        simp
      · simp [hkk]
    · rw [hf]
      have hq : q.1 = k := by simpa using List.find?_some hf
      have hmem := List.mem_of_find?_eq_some hf
      by_cases hkk : k' = k
      · subst hkk
        rw [List.any_eq_false] at hany
        exact absurd (by simpa using hq) (by simpa using hany q hmem)
      · simp [hkk]

theorem dictGet_foldl (E : List (List Char × PyValue)) (d : Dict) (k : List Char) :
    dictGet k (E.foldl (fun acc kv => pyInsert acc kv.1 kv.2) d) =
      (match lastAssoc E k with
       | some v => some v
       | Option.none => dictGet k d) := by
  induction E generalizing d with
  | nil => simp [lastAssoc]
  | cons kv rest ih =>
    simp only [List.foldl_cons, lastAssoc]
    rw [ih]
    rcases lastAssoc rest k with _ | v
    · rw [dictGet_pyInsert]
      by_cases h : kv.1 = k <;> simp [h]
    · simp

/-! ### Claims -/

set_option maxRecDepth 100000 in
/-- Claim C1: loading the fixture inlist through `get_inlist_values`, with
the same file contents serving as its own defaults, returns exactly the
expected mapping; in particular the token `8%7%6` yields the integer `8`
with the rest discarded as a comment. -/
theorem claim_C1 :
    get_inlist_values (joinedReadlines fixtureText.data)
      (joinedReadlines fixtureText.data) = some fixtureExpected := by
  rfl

/-- Claim C2: for every defaults mapping `D` and run-file text parsing to
entries `E`, the result of overlaying the run file on `D` maps every key
bound in `E` to its last value in `E`, keeps `D`'s value for keys absent from
`E` (flat, last-write-wins), and `get_inlist_values` returns exactly this
overlay whenever the defaults text parses to `D`. -/
theorem claim_C2 (D : Dict) (text : List Char)
    (E : List (List Char × PyValue)) (m : Dict)
    (hE : parseEntries text = some E) (hm : parse_inlist text D = some m) :
    (∀ k, dictGet k m =
      (match lastAssoc E k with
       | some v => some v
       | Option.none => dictGet k D)) ∧
    (∀ dt, parse_inlist dt [] = some D →
      get_inlist_values dt text = some m) := by
  unfold parse_inlist at hm
  rw [hE] at hm
  simp only [Option.map_some'] at hm
  cases hm
  constructor
  · intro k
    exact dictGet_foldl E D k
  · intro dt hdt
    unfold get_inlist_values
    rw [hdt]
    unfold parse_inlist
    rw [hE]
    rfl

/-- Witness for claim C2, matching the spec's own example: defaults
`{a: 1, b: 2}` overlaid with a run file setting `{b: 3, c: 4}` yields
`{a: 1, b: 3, c: 4}`. -/
theorem claim_C2_witness :
    parseEntries ("b = 3\nc = 4".data) =
      some [("b".data, PyValue.int 3), ("c".data, PyValue.int 4)] ∧
    dictGet ("a".data)
      [("a".data, PyValue.int 1), ("b".data, PyValue.int 3), ("c".data, PyValue.int 4)] =
        some (PyValue.int 1) ∧
    dictGet ("b".data)
      [("a".data, PyValue.int 1), ("b".data, PyValue.int 3), ("c".data, PyValue.int 4)] =
        some (PyValue.int 3) ∧
    dictGet ("c".data)
      [("a".data, PyValue.int 1), ("b".data, PyValue.int 3), ("c".data, PyValue.int 4)] =
        some (PyValue.int 4) := by
  refine ⟨rfl, ?_, ?_, ?_⟩
  · exact (((claim_C2
      [("a".data, PyValue.int 1), ("b".data, PyValue.int 2)]
      ("b = 3\nc = 4".data)
      [("b".data, PyValue.int 3), ("c".data, PyValue.int 4)]
      [("a".data, PyValue.int 1), ("b".data, PyValue.int 3), ("c".data, PyValue.int 4)]
      rfl rfl).1 ("a".data)).trans (by rfl))
  · exact (((claim_C2
      [("a".data, PyValue.int 1), ("b".data, PyValue.int 2)]
      ("b = 3\nc = 4".data)
      [("b".data, PyValue.int 3), ("c".data, PyValue.int 4)]
      [("a".data, PyValue.int 1), ("b".data, PyValue.int 3), ("c".data, PyValue.int 4)]
      rfl rfl).1 ("b".data)).trans (by rfl))
  · exact (((claim_C2
      [("a".data, PyValue.int 1), ("b".data, PyValue.int 2)]
      ("b = 3\nc = 4".data)
      [("b".data, PyValue.int 3), ("c".data, PyValue.int 4)]
      [("a".data, PyValue.int 1), ("b".data, PyValue.int 3), ("c".data, PyValue.int 4)]
      rfl rfl).1 ("c".data)).trans (by rfl))

/-- Claim C4: a token without quote characters that contains one of the
substrings `False`, `FALSE`, `True`, `TRUE` types to a Boolean, which is
`False` exactly when the token contains `False` or `FALSE` (the False check
wins even if `True` also occurs). -/
theorem claim_C4 (s : List Char)
    (hq : string_check s = false)
    (hb : containsSub ("False".data) s = true ∨ containsSub ("FALSE".data) s = true ∨
          containsSub ("True".data) s = true ∨ containsSub ("TRUE".data) s = true) :
    typer s =
      some (.bool (!(containsSub ("False".data) s || containsSub ("FALSE".data) s))) := by
  have hbc : bool_check s = true := by
    unfold bool_check
    rcases hb with h | h | h | h <;> simp [h]
  unfold typer
  simp only [hq, Bool.false_eq_true, if_false, hbc, if_true]
  unfold bool_false_check
  cases hbf : (containsSub ("False".data) s || containsSub ("FALSE".data) s) <;>
    simp [hbf]

/-- Witness for claim C4: `infer("FALSE") = False`, `infer("True") = True`,
and a token containing both `False` and `True` yields `False`. -/
theorem claim_C4_witness :
    typer ("FALSE".data) = some (.bool false) ∧
    typer ("True".data) = some (.bool true) ∧
    typer ("NotFalseTrue".data) = some (.bool false) := by
  refine ⟨?_, ?_, ?_⟩
  · exact (claim_C4 ("FALSE".data) (by rfl)
      (Or.inr (Or.inl (by rfl)))).trans (by rfl)
  · exact (claim_C4 ("True".data) (by rfl)
      (Or.inr (Or.inr (Or.inl (by rfl))))).trans (by rfl)
  · exact (claim_C4 ("NotFalseTrue".data) (by rfl)
      (Or.inl (by rfl))).trans (by rfl)

/-- Claim C3 (amended): for a token wrapped in matching quote characters and
containing no square bracket, `_typer` returns the token with all leading and
trailing double quotes stripped, then all leading and trailing single quotes
stripped (Python `strip` removes every matching end character, not exactly
one). -/
theorem claim_C3_amended (s : List Char) (q : Char)
    (hq : q = quoteS ∨ q = quoteD)
    (hhead : s.head? = some q) (_hlast : s.getLast? = some q)
    (hb1 : ('[' ∈ s) → False) (hb2 : (']' ∈ s) → False) :
    typer s = some (.str (pyStrip quoteS (pyStrip quoteD s))) := by
  have hsc : string_check s = true := by
    cases s with
    | nil => simp at hhead
    | cons a t =>
      have ha : a = q := by simpa using hhead
      unfold string_check
      rcases hq with h | h <;> simp [ha, h]
  have hlc : list_check s = false := by
    unfold list_check
    have h1 : s.any (fun c => c = '[') = false := by
      rw [List.any_eq_false]
      intro c hc
      simp only [decide_eq_true_eq]
      intro hcc
      exact hb1 (hcc ▸ hc)
    simp [h1]
  unfold typer
  simp only [hsc, if_true, hlc, Bool.false_eq_true, if_false]

/-- Counterexample for claim C3 as stated: the token `''a''` is wrapped in
matching single quotes and has no brackets, so the claim predicts the string
`'a'` (exactly one quote removed from each end); the code returns `a`. -/
theorem claim_C3_counterexample :
    typer ("''a''".data) = some (.str ("a".data)) ∧
    ("a".data : List Char) ≠ ("'a'".data : List Char) := by
  exact ⟨rfl, by decide⟩

/-- Witness for the amended claim C3 on the quoted token `'abc'`. -/
theorem claim_C3_witness :
    typer ("'abc'".data) =
      some (.str (pyStrip quoteS (pyStrip quoteD ("'abc'".data)))) ∧
    pyStrip quoteS (pyStrip quoteD ("'abc'".data)) = "abc".data := by
  refine ⟨?_, by decide⟩
  exact claim_C3_amended ("'abc'".data) quoteS (Or.inl rfl) (by rfl) (by rfl)
    (by decide) (by decide)

/-- Claim C7: `get_inlist_values` either returns the full merged mapping —
both the defaults text and the run text parsed completely — or fails; a parse
error in either file propagates and no partial or best-effort mapping is ever
returned.  (The `except NameError` / `except TypeError` handlers in
`_parse_inlist` catch exception types the parse pipeline cannot raise.) -/
theorem claim_C7 (dt rt : List Char) :
    (∀ m, get_inlist_values dt rt = some m →
      ∃ Ed Er, parseEntries dt = some Ed ∧ parseEntries rt = some Er ∧
        m = Er.foldl (fun acc kv => pyInsert acc kv.1 kv.2)
              (Ed.foldl (fun acc kv => pyInsert acc kv.1 kv.2) [])) ∧
    ((parseEntries dt = Option.none ∨ parseEntries rt = Option.none) →
      get_inlist_values dt rt = Option.none) := by
  constructor
  · intro m h
    unfold get_inlist_values at h
    rcases hpd : parse_inlist dt [] with _ | d
    · rw [hpd] at h
      exact absurd h (by simp)
    · rw [hpd] at h
      unfold parse_inlist at hpd h
      rcases hed : parseEntries dt with _ | Ed
      · rw [hed] at hpd
        exact absurd hpd (by simp)
      · rw [hed] at hpd
        simp only [Option.map_some'] at hpd
        rcases her : parseEntries rt with _ | Er
        · rw [her] at h
          exact absurd h (by simp)
        · rw [her] at h
          simp only [Option.map_some'] at h
          refine ⟨Ed, Er, rfl, rfl, ?_⟩
          cases hpd
          cases h
          rfl
  · intro herr
    unfold get_inlist_values parse_inlist
    rcases herr with h | h
    · rw [h]
      rfl
    · rcases hed : parseEntries dt with _ | Ed
      · rfl
      · rw [h]
        rfl

/-- Witness for claim C7: a successful load decomposes into the two full
parses, and a malformed run file (`a = [` — an unterminated list token whose
typing fails) aborts the whole load. -/
theorem claim_C7_witness :
    (∃ Ed Er, parseEntries ("a = 1".data) = some Ed ∧
       parseEntries ("a = 2".data) = some Er ∧
       [("a".data, PyValue.int 2)] =
         Er.foldl (fun acc kv => pyInsert acc kv.1 kv.2)
           (Ed.foldl (fun acc kv => pyInsert acc kv.1 kv.2) [])) ∧
    get_inlist_values ("a = 1".data) ("a = [".data) = Option.none := by
  constructor
  · exact (claim_C7 ("a = 1".data) ("a = 2".data)).1 [("a".data, PyValue.int 2)] rfl
  · exact (claim_C7 ("a = 1".data) ("a = [".data)).2 (Or.inr rfl)

/-- Claim C8 (amended): `_adjust_for_none` replaces an empty table by `None`
and recurses into non-empty tables, at every nesting depth reachable through
tables; values inside arrays are never visited — tables nested in lists stay
unchanged — and scalars and arrays (even empty ones) are returned as is. -/
theorem claim_C8_amended :
    adjustEntry (TomlVal.table []) = TomlVal.none ∧
    (∀ kvs, kvs ≠ [] →
      adjustEntry (TomlVal.table kvs) = TomlVal.table (adjustKVs kvs)) ∧
    (∀ kvs, adjustKVs kvs = kvs.map (fun p => (p.1, adjustEntry p.2))) ∧
    (∀ xs, adjustEntry (TomlVal.arr xs) = TomlVal.arr xs) ∧
    (∀ t, adjustEntry (TomlVal.str t) = TomlVal.str t) ∧
    (∀ n, adjustEntry (TomlVal.int n) = TomlVal.int n) ∧
    (∀ q, adjustEntry (TomlVal.float q) = TomlVal.float q) ∧
    (∀ b, adjustEntry (TomlVal.bool b) = TomlVal.bool b) ∧
    adjustEntry TomlVal.none = TomlVal.none ∧
    (∀ root, toml_get_inlist_values root =
       root.map (fun p => (p.1, adjustEntry p.2))) := by
  have hmap : ∀ kvs : List (String × TomlVal),
      adjustKVs kvs = kvs.map (fun p => (p.1, adjustEntry p.2)) := by
    intro kvs
    induction kvs with
    | nil => rfl
    | cons kv rest ih =>
      cases kv
      simp [adjustKVs, ih]
  refine ⟨rfl, ?_, hmap, fun _ => rfl, fun _ => rfl, fun _ => rfl, fun _ => rfl,
    fun _ => rfl, rfl, fun root => hmap root⟩
  intro kvs h
  cases kvs with
  | nil => exact absurd rfl h
  | cons kv rest => rfl

/-- Counterexample for claim C8 as stated: an empty table nested inside an
array is not replaced by `Null` — normalisation leaves the tree unchanged
instead of rewriting the empty table at that depth. -/
theorem claim_C8_counterexample :
    toml_get_inlist_values
        [("a", TomlVal.arr [TomlVal.table [("b", TomlVal.table [])]])] =
      [("a", TomlVal.arr [TomlVal.table [("b", TomlVal.table [])]])] ∧
    ¬ (toml_get_inlist_values
        [("a", TomlVal.arr [TomlVal.table [("b", TomlVal.table [])]])] =
      [("a", TomlVal.arr [TomlVal.table [("b", TomlVal.none)]])]) := by
  refine ⟨rfl, ?_⟩
  intro h
  simp [toml_get_inlist_values, adjustKVs, adjustEntry] at h

/-- Witness for the amended claim C8: a non-empty table is kept as a table
with its entries normalised. -/
theorem claim_C8_witness :
    adjustEntry (TomlVal.table [("b", TomlVal.table [])]) =
      TomlVal.table [("b", TomlVal.none)] :=
  (claim_C8_amended.2.1 [("b", TomlVal.table [])] (by simp)).trans rfl

/-- Claim C10: emptiness is judged on the pre-normalisation value — a table
that is non-empty before normalisation is never itself replaced by `Null`,
even when all of its entries become `Null`; `{a = {b = {}}}` normalises to
`{a: {b: None}}`, never `{a: None}`. -/
theorem claim_C10 :
    (∀ kvs, kvs ≠ [] → ¬ (adjustEntry (TomlVal.table kvs) = TomlVal.none)) ∧
    toml_get_inlist_values [("a", TomlVal.table [("b", TomlVal.table [])])] =
      [("a", TomlVal.table [("b", TomlVal.none)])] := by
  constructor
  · intro kvs h
    cases kvs with
    | nil => exact absurd rfl h
    | cons kv rest => simp [adjustEntry]
  · rfl

/-- Witness for claim C10: the singleton table `{b = {}}` is non-empty, so it
is not replaced by `Null`. -/
theorem claim_C10_witness :
    ¬ (adjustEntry (TomlVal.table [("b", TomlVal.table [])]) = TomlVal.none) :=
  claim_C10.1 [("b", TomlVal.table [])] (by simp)

/-- Characterisation of the compiled float regex model: `floatRegexMatch`
accepts exactly the tokens that START with one or more digits, then `e` or
`E`, then any number of minus signs, then at least one digit — the token may
continue arbitrarily afterwards (`re.match` is prefix-anchored). -/
theorem floatRegexMatch_iff (s : List Char) :
    floatRegexMatch s = true ↔
      ∃ (d1 ms d2 rest : List Char) (e : Char),
        (e = 'e' ∨ e = 'E') ∧ d1 ≠ [] ∧ (∀ c ∈ d1, c.isDigit = true) ∧
        (∀ c ∈ ms, c = '-') ∧ d2 ≠ [] ∧ (∀ c ∈ d2, c.isDigit = true) ∧
        s = d1 ++ e :: (ms ++ (d2 ++ rest)) := by
  constructor
  · intro h
    unfold floatRegexMatch at h
    cases s with
    | nil => exact absurd h (by simp)
    | cons c rest0 =>
      rw [Bool.and_eq_true] at h
      obtain ⟨hc, h2⟩ := h
      rcases he : rest0.dropWhile Char.isDigit with _ | ⟨e, r2⟩
      · rw [he] at h2
        exact absurd h2 (by simp)
      · rw [he] at h2
        rw [Bool.and_eq_true] at h2
        obtain ⟨hee, h3⟩ := h2
        rcases hd : r2.dropWhile (fun d => d = '-') with _ | ⟨d, tail⟩
        · rw [hd] at h3
          exact absurd h3 (by simp)
        · rw [hd] at h3
          refine ⟨c :: rest0.takeWhile Char.isDigit,
            r2.takeWhile (fun d => d = '-'), [d], tail, e,
            by simpa using hee, by simp, ?_, ?_, by simp, ?_, ?_⟩
          · intro x hx
            rcases List.mem_cons.mp hx with hx | hx
            · exact hx ▸ hc
            · exact List.mem_takeWhile_imp hx
          · intro x hx
            simpa using List.mem_takeWhile_imp hx
          · intro x hx
            rw [List.mem_singleton.mp hx]
            exact h3
          · have h1 : rest0.takeWhile Char.isDigit ++ rest0.dropWhile Char.isDigit
                = rest0 := List.takeWhile_append_dropWhile _ _
            have h2' : r2.takeWhile (fun d => d = '-') ++
                r2.dropWhile (fun d => d = '-') = r2 :=
              List.takeWhile_append_dropWhile _ _
            rw [hd] at h2'
            conv_lhs => rw [← h1, he, ← h2']
            simp
  · rintro ⟨d1, ms, d2, rest, e, hE, hne, hd1, hms, hne2, hd2, rfl⟩
    unfold floatRegexMatch
    cases d1 with
    | nil => exact absurd rfl hne
    | cons a d1' =>
      simp only [List.cons_append]
      rw [Bool.and_eq_true]
      refine ⟨hd1 a (by simp), ?_⟩
      have hdrop : (d1' ++ e :: (ms ++ (d2 ++ rest))).dropWhile Char.isDigit =
          e :: (ms ++ (d2 ++ rest)) := by
        rw [List.dropWhile_append_of_pos (fun x hx => hd1 x (by simp [hx]))]
        rw [List.dropWhile_cons_of_neg]
        rcases hE with rfl | rfl <;> decide
      rw [hdrop]
      rw [Bool.and_eq_true]
      constructor
      · rcases hE with rfl | rfl <;> simp
      · cases d2 with
        | nil => exact absurd rfl hne2
        | cons b d2' =>
          have hb : b.isDigit = true := hd2 b (by simp)
          have hdrop2 : (ms ++ (b :: d2' ++ rest)).dropWhile (fun d => d = '-') =
              b :: (d2' ++ rest) := by
            rw [List.dropWhile_append_of_pos (fun x hx => by simp [hms x hx])]
            simp only [List.cons_append]
            rw [List.dropWhile_cons_of_neg]
            simp only [decide_eq_true_eq]
            intro hbb
            rw [hbb] at hb
            exact absurd hb (by decide)
          rw [hdrop2]
          exact hb

/-- Claim C9 (amended): a token reaching inference step 6 (no quotes, no
boolean substring, no `None` substring, no bracket pair, no parenthesis
pair) is routed to literal evaluation exactly when it contains a `.` or the
pattern `\d+[eE]-*\d+` matches a PREFIX of it (any number of minus signs);
evaluation yields a Float for a valid float literal but can fail (or yield a
non-float literal); all other such tokens are parsed with the builtin `int`,
failing when the text is not a valid integer literal. -/
theorem claim_C9_amended (s : List Char)
    (h1 : string_check s = false) (h2 : bool_check s = false)
    (h3 : none_check s = false) (h4 : list_check s = false)
    (h5 : tuple_check s = false) :
    (typer s = (if float_check s || floatRegexMatch s then literal_eval s
                else (pyInt s).map PyValue.int)) ∧
    (floatRegexMatch s = true ↔
      ∃ (d1 ms d2 rest : List Char) (e : Char),
        (e = 'e' ∨ e = 'E') ∧ d1 ≠ [] ∧ (∀ c ∈ d1, c.isDigit = true) ∧
        (∀ c ∈ ms, c = '-') ∧ d2 ≠ [] ∧ (∀ c ∈ d2, c.isDigit = true) ∧
        s = d1 ++ e :: (ms ++ (d2 ++ rest))) := by
  refine ⟨?_, floatRegexMatch_iff s⟩
  unfold typer
  simp only [h1, h2, h3, h4, h5, Bool.false_eq_true, if_false]

/-- Counterexample for claim C9 as stated: the bare token `.` reaches step 6
and contains a dot, so the claim predicts a Float value; evaluating it fails
(`ast.literal_eval('.')` raises), so no Float results. -/
theorem claim_C9_counterexample :
    string_check (".".data) = false ∧ bool_check (".".data) = false ∧
    none_check (".".data) = false ∧ list_check (".".data) = false ∧
    tuple_check (".".data) = false ∧ float_check (".".data) = true ∧
    typer (".".data) = Option.none := by
  exact ⟨rfl, rfl, rfl, rfl, rfl, rfl, rfl⟩

/-- Witness for the amended claim C9: `8.0` routes to float evaluation and
yields the float 8; the prefix pattern accepts `12e-34x` (trailing garbage
and all) via the explicit decomposition `12 · e · - · 3 · 4x`. -/
theorem claim_C9_witness :
    typer ("8.0".data) = some (PyValue.float 8) ∧
    floatRegexMatch ("12e-34x".data) = true := by
  constructor
  · exact ((claim_C9_amended ("8.0".data) rfl rfl rfl rfl rfl).1).trans (by rfl)
  · exact (claim_C9_amended ("12e-34x".data) rfl rfl rfl rfl rfl).2.mpr
      ⟨['1', '2'], ['-'], ['3'], "4x".data, 'e', Or.inl rfl, by simp,
        by decide, by decide, by simp, by decide, by decide⟩

theorem getLast?_filter_range_none {p : Nat → Bool} {n : Nat} :
    ((List.range n).filter p).getLast? = Option.none ↔
      ∀ m, m < n → p m = false := by
  rw [List.getLast?_eq_none_iff, List.filter_eq_nil_iff]
  constructor
  · intro h m hm
    have := h m (List.mem_range.mpr hm)
    simpa using this
  · intro h m hm
    simp [h m (List.mem_range.mp hm)]

theorem getLast?_filter_range_spec {p : Nat → Bool} {n j : Nat}
    (h : ((List.range n).filter p).getLast? = some j) :
    p j = true ∧ j < n ∧ ∀ m, m < n → p m = true → m ≤ j := by
  induction n with
  | zero => simp [List.range_zero] at h
  | succ n ih =>
    rw [List.range_succ, List.filter_append] at h
    by_cases hp : p n = true
    · rw [List.filter_cons_of_pos hp] at h
      simp only [List.filter_nil, List.getLast?_concat, Option.some.injEq] at h
      subst h
      exact ⟨hp, Nat.lt_succ_self n,
        fun m hm _ => Nat.lt_succ_iff.mp hm⟩
    · rw [List.filter_cons_of_neg hp] at h
      simp only [List.filter_nil, List.append_nil] at h
      obtain ⟨h1, h2, h3⟩ := ih h
      refine ⟨h1, Nat.lt_succ_of_lt h2, fun m hm hpm => ?_⟩
      rcases Nat.lt_succ_iff_lt_or_eq.mp hm with hm' | rfl
      · exact h3 m hm' hpm
      · exact absurd hpm hp

theorem dotAfter_iff {s : List Char} {j : Nat} :
    dotAfter s j = true ↔
      ∃ k, j < k ∧ k < s.length ∧ s.getD k ' ' = '.' := by
  unfold dotAfter
  rw [List.any_eq_true]
  constructor
  · rintro ⟨k, hk, hp⟩
    rw [Bool.and_eq_true] at hp
    exact ⟨k, by simpa using hp.1, List.mem_range.mp hk, by simpa using hp.2⟩
  · rintro ⟨k, h1, h2, h3⟩
    refine ⟨k, List.mem_range.mpr h2, ?_⟩
    rw [Bool.and_eq_true]
    exact ⟨by simpa using h1, by simpa using h3⟩

/-- Claim C6 (amended): defaults resolution raises (`NameError`) exactly when
the path contains no `/ … / … .` pattern — i.e. no two slashes followed
later by a dot, in that order, anywhere in the path (`.*` also crosses
separators, so the shape is looser than `dir/subdir/name.ext`); on success
the constructed defaults path is `group1 ++ /defaults/ ++ group2 ++
.defaults`, with the groups determined by the leftmost-greedy match
(`regexJ`, `regexI`, `regexK`). -/
theorem claim_C6_amended (s : List Char) :
    (get_default_inlist_path s = Option.none ↔
      ¬ ∃ i j k, i < j ∧ j < k ∧ k < s.length ∧
        s.getD i ' ' = '/' ∧ s.getD j ' ' = '/' ∧ s.getD k ' ' = '.') ∧
    (∀ t, get_default_inlist_path s = some t →
      ∃ j i k, regexJ s = some j ∧ regexI s j = some i ∧ regexK s = some k ∧
        t = (s.take i) ++ ("/defaults/".data) ++
          ((s.take k).drop (j + 1)) ++ (".defaults".data)) := by
  constructor
  · constructor
    · intro h hex
      obtain ⟨i, j, k, hij, hjk, hk, hsi, hsj, hsk⟩ := hex
      have hpredJ : (decide (s.getD j ' ' = '/') && dotAfter s j) = true := by
        rw [Bool.and_eq_true]
        exact ⟨by simpa using hsj, dotAfter_iff.mpr ⟨k, hjk, hk, hsk⟩⟩
      unfold get_default_inlist_path at h
      split at h
      · rename_i j0 hJ
        split at h
        · rename_i i0 hI
          split at h
          · rename_i k0 hK
            exact absurd h (by simp)
          · rename_i hK
            unfold regexK at hK
            rw [getLast?_filter_range_none] at hK
            have hc := hK k hk
            rw [decide_eq_false_iff_not] at hc
            exact hc hsk
        · rename_i hI
          unfold regexJ at hJ
          obtain ⟨hpj, hjn, hmax⟩ := getLast?_filter_range_spec hJ
          have hjj0 : j ≤ j0 := hmax j (Nat.lt_trans hjk hk) hpredJ
          unfold regexI at hI
          rw [getLast?_filter_range_none] at hI
          have hc := hI i (Nat.lt_trans (Nat.lt_trans hij hjk) hk)
          have ht : (decide (i < j0) && decide (s.getD i ' ' = '/')) = true := by
            rw [Bool.and_eq_true]
            exact ⟨by simpa using Nat.lt_of_lt_of_le hij hjj0, by simpa using hsi⟩
          rw [hc] at ht
          exact Bool.false_ne_true ht
      · rename_i hJ
        unfold regexJ at hJ
        rw [getLast?_filter_range_none] at hJ
        rw [hJ j (Nat.lt_trans hjk hk)] at hpredJ
        exact Bool.false_ne_true hpredJ
    · intro hne
      rcases hG : get_default_inlist_path s with _ | t
      · rfl
      · exfalso
        apply hne
        unfold get_default_inlist_path at hG
        split at hG
        · rename_i j0 hJ
          split at hG
          · rename_i i0 hI
            unfold regexJ at hJ
            obtain ⟨hpj, hjn, _⟩ := getLast?_filter_range_spec hJ
            rw [Bool.and_eq_true] at hpj
            obtain ⟨hslashj, hdotj⟩ := hpj
            obtain ⟨k1, hk1, hk2, hk3⟩ := dotAfter_iff.mp hdotj
            unfold regexI at hI
            obtain ⟨hpi, hin, _⟩ := getLast?_filter_range_spec hI
            rw [Bool.and_eq_true] at hpi
            exact ⟨i0, j0, k1, by simpa using hpi.1, hk1, hk2,
              by simpa using hpi.2, by simpa using hslashj, hk3⟩
          · rename_i hI
            exact absurd hG (by simp)
        · rename_i hJ
          exact absurd hG (by simp)
  · intro t hG
    unfold get_default_inlist_path at hG
    split at hG
    · rename_i j0 hJ
      split at hG
      · rename_i i0 hI
        split at hG
        · rename_i k0 hK
          simp only [Option.some.injEq] at hG
          exact ⟨j0, i0, k0, hJ, hI, hK, hG.symm⟩
        · rename_i hK
          exact absurd hG (by simp)
      · rename_i hI
        exact absurd hG (by simp)
    · rename_i hJ
      exact absurd hG (by simp)

/-- Counterexample for claim C6 as stated: the path `a/b/c.d/e` does not
match `dir/subdir/name.ext` (its final segment `e` has no extension dot),
so the claim predicts a `NameError`; the code's regex matches it anyway and
resolves the defaults path `a/defaults/c.defaults`. -/
theorem claim_C6_counterexample :
    specNamingPattern ("a/b/c.d/e".data) = false ∧
    get_default_inlist_path ("a/b/c.d/e".data) =
      some ("a/defaults/c.defaults".data) := by
  exact ⟨rfl, rfl⟩

/-- Witness for the amended claim C6: a conventional path resolves to
`dir/defaults/name.defaults`, and a path with no dot after two slashes is
rejected. -/
theorem claim_C6_witness :
    get_default_inlist_path ("a/b/test.in".data) =
      some ("a/defaults/test.defaults".data) ∧
    get_default_inlist_path ("a/b/name".data) = Option.none := by
  constructor
  · rfl
  · refine (claim_C6_amended ("a/b/name".data)).1.mpr ?_
    rintro ⟨i, j, k, hij, hjk, hk, hsi, hsj, hsk⟩
    have hk8 : k < 8 := by simpa using hk
    interval_cases k <;> exact absurd hsk (by decide)

/-! ### Substring and remainder lemmas for the literal parser

Needed to settle claim C5: a literal evaluation can only produce the value
`None` when the token contains `None` as a substring. -/

theorem containsSub_of_startsWith {n s : List Char}
    (h : startsWithL n s = true) : containsSub n s = true := by
  cases s with
  | nil => rw [containsSub]; exact h
  | cons c r =>
    rw [containsSub, Bool.or_eq_true]
    exact Or.inl h

theorem containsSub_of_suffix {n r s : List Char} (hsuf : r <:+ s)
    (h : containsSub n r = true) : containsSub n s = true := by
  obtain ⟨t, rfl⟩ := hsuf
  induction t with
  | nil => exact h
  | cons c t ih =>
    rw [List.cons_append, containsSub, Bool.or_eq_true]
    exact Or.inr ih

theorem scanStr_suffix (q : Char) :
    ∀ s p, scanStr q s = some p → p.2 <:+ s := by
  intro s
  induction s with
  | nil => intro p h; rw [scanStr] at h; exact absurd h (by simp)
  | cons c rest ih =>
    intro p h
    rw [scanStr] at h
    split at h
    · cases h
      exact List.suffix_cons c rest
    · rw [Option.map_eq_some'] at h
      obtain ⟨p', hp', rfl⟩ := h
      exact (ih p' hp').trans (List.suffix_cons c rest)

theorem digitsTail_suffix : ∀ s : List Char, (digitsTail s).2 <:+ s := by
  have key : ∀ n (s : List Char), s.length ≤ n → (digitsTail s).2 <:+ s := by
    intro n
    induction n with
    | zero =>
      intro s hs
      rw [List.eq_nil_of_length_eq_zero (Nat.le_zero.mp hs)]
      exact List.suffix_refl _
    | succ n ih =>
      intro s hs
      cases s with
      | nil => exact List.suffix_refl _
      | cons c rest =>
        rw [digitsTail.eq_def]
        dsimp only
        split
        · exact ((ih rest (Nat.le_of_succ_le_succ hs)).trans
            (List.suffix_cons c rest))
        · split
          · split
            · split
              · rename_i d rest2 hd
                refine ((ih rest2 ?_).trans ?_)
                · exact Nat.le_of_succ_le (Nat.le_of_succ_le_succ hs)
                · exact (List.suffix_cons d rest2).trans
                    (List.suffix_cons c (d :: rest2))
              · exact List.suffix_refl _
            · exact List.suffix_refl _
          · exact List.suffix_refl _
  exact fun s => key s.length s (Nat.le_refl _)

theorem digitpart_suffix {s : List Char} {p} (h : digitpart s = some p) :
    p.2 <:+ s := by
  unfold digitpart at h
  split at h
  · split at h
    · cases h
      rename_i c rest _
      exact (digitsTail_suffix rest).trans (List.suffix_cons c rest)
    · exact absurd h (by simp)
  · exact absurd h (by simp)

theorem parseExponent_suffix {s : List Char} {p} (h : parseExponent s = some p) :
    p.2 <:+ s := by
  unfold parseExponent at h
  split at h
  · rename_i c rest
    split at h
    · split at h
      · rename_i d r2
        split at h
        · rw [Option.map_eq_some'] at h
          obtain ⟨q, hq, rfl⟩ := h
          exact (digitpart_suffix hq).trans
            ((List.suffix_cons d r2).trans (List.suffix_cons c (d :: r2)))
        · split at h
          · rw [Option.map_eq_some'] at h
            obtain ⟨q, hq, rfl⟩ := h
            exact (digitpart_suffix hq).trans
              ((List.suffix_cons d r2).trans (List.suffix_cons c (d :: r2)))
          · rw [Option.map_eq_some'] at h
            obtain ⟨q, hq, rfl⟩ := h
            exact (digitpart_suffix hq).trans (List.suffix_cons c (d :: r2))
      · exact absurd h (by simp)
    · exact absurd h (by simp)
  · exact absurd h (by simp)

theorem parseNumber_spec {s : List Char} {v r}
    (h : parseNumber s = some (v, r)) :
    (r <:+ s) ∧ ¬ (v = PyValue.none) := by
  unfold parseNumber at h
  split at h
  · rename_i ip r1 hdp
    have h1 : r1 <:+ s := digitpart_suffix hdp
    split at h
    · rename_i r2
      have h2 : r2 <:+ s := (List.suffix_cons '.' r2).trans h1
      split at h
      · rename_i fp r3 hdp2
        have h3 : r3 <:+ s := (digitpart_suffix hdp2).trans h2
        split at h
        · rename_i ex r4 hexp
          cases h
          exact ⟨(parseExponent_suffix hexp).trans h3, by simp⟩
        · cases h
          exact ⟨h3, by simp⟩
      · split at h
        · rename_i ex r4 hexp
          cases h
          exact ⟨(parseExponent_suffix hexp).trans h2, by simp⟩
        · cases h
          exact ⟨h2, by simp⟩
    · split at h
      · rename_i ex r2 hexp
        cases h
        exact ⟨(parseExponent_suffix hexp).trans h1, by simp⟩
      · split at h
        · exact absurd h (by simp)
        · cases h
          exact ⟨h1, by simp⟩
  · split at h
    · rename_i r2 hdpn
      split at h
      · rename_i fp r3 hdp2
        have h3 : r3 <:+ ('.' :: r2) :=
          (digitpart_suffix hdp2).trans (List.suffix_cons '.' r2)
        split at h
        · rename_i ex r4 hexp
          cases h
          exact ⟨(parseExponent_suffix hexp).trans h3, by simp⟩
        · cases h
          exact ⟨h3, by simp⟩
      · exact absurd h (by simp)
    · exact absurd h (by simp)

theorem negVal_eq_none {v : PyValue} (h : negVal v = PyValue.none) :
    v = PyValue.none := by
  cases v <;> first
  | rfl
  | exact absurd h (by simp [negVal])

theorem parseValStep_suffix
    {items : List Char → Option (List PyValue × Bool × List Char)}
    (hitems : ∀ s vs t r, items s = some (vs, t, r) → r <:+ s) :
    ∀ s v r, parseValStep items s = some (v, r) → r <:+ s := by
  intro s v r h
  unfold parseValStep at h
  split at h
  · cases h
    exact ⟨['N', 'o', 'n', 'e'], rfl⟩
  · cases h
    exact ⟨['T', 'r', 'u', 'e'], rfl⟩
  · cases h
    exact ⟨['F', 'a', 'l', 's', 'e'], rfl⟩
  · cases h
    exact ⟨['[', ']'], rfl⟩
  · split at h
    · rename_i vs b r3 hin
      cases h
      exact ((List.suffix_cons ']' _).trans (hitems _ _ _ _ hin)).trans
        (List.suffix_cons '[' _)
    · exact absurd h (by simp)
  · cases h
    exact ⟨['(', ')'], rfl⟩
  · split at h
    · rename_i v0 r3 hin
      cases h
      exact ((List.suffix_cons ')' _).trans (hitems _ _ _ _ hin)).trans
        (List.suffix_cons '(' _)
    · rename_i vs b r3 hne hin
      cases h
      exact ((List.suffix_cons ')' _).trans (hitems _ _ _ _ hin)).trans
        (List.suffix_cons '(' _)
    · exact absurd h (by simp)
  · rw [Option.map_eq_some'] at h
    obtain ⟨⟨pv, pr⟩, hp, heq⟩ := h
    cases heq
    exact ((parseNumber_spec hp).1).trans (List.suffix_cons '-' _)
  · exact ((parseNumber_spec h).1).trans (List.suffix_cons '+' _)
  · split at h
    · rw [Option.map_eq_some'] at h
      obtain ⟨⟨pv, pr⟩, hp, heq⟩ := h
      cases heq
      exact (scanStr_suffix _ _ _ hp).trans (List.suffix_cons _ _)
    · exact (parseNumber_spec h).1
  · exact absurd h (by simp)

theorem parseItemsStep_suffix
    {val : List Char → Option (PyValue × List Char)}
    {items : List Char → Option (List PyValue × Bool × List Char)}
    (hval : ∀ s v r, val s = some (v, r) → r <:+ s)
    (hitems : ∀ s vs t r, items s = some (vs, t, r) → r <:+ s) :
    ∀ s vs t r, parseItemsStep val items s = some (vs, t, r) → r <:+ s := by
  intro s vs t r h
  unfold parseItemsStep at h
  split at h
  · rename_i v r2 hp
    have hr2 : r2 <:+ s :=
      (List.suffix_cons ',' r2).trans (hval s _ _ hp)
    split at h
    · cases h
      exact hr2
    · cases h
      exact hr2
    · cases h
      exact hr2
    · split at h
      · rename_i vs1 t1 r3 hin
        cases h
        exact (hitems r2 _ _ _ hin).trans hr2
      · exact absurd h (by simp)
  · rename_i v r0 hne hp
    cases h
    exact hval s _ _ hp
  · exact absurd h (by simp)

theorem parse_suffix : ∀ fuel : Nat,
    (∀ s v r, parseVal fuel s = some (v, r) → r <:+ s) ∧
    (∀ s vs t r, parseItems fuel s = some (vs, t, r) → r <:+ s) := by
  intro fuel
  induction fuel with
  | zero =>
    constructor
    · intro s v r h
      exact absurd h (by simp [parseVal, parsers])
    · intro s vs t r h
      exact absurd h (by simp [parseItems, parsers])
  | succ n ih =>
    obtain ⟨ihV, ihI⟩ := ih
    constructor
    · intro s v r h
      exact parseValStep_suffix ihI s v r h
    · intro s vs t r h
      exact parseItemsStep_suffix ihV ihI s vs t r h

theorem parseValStep_none
    {items : List Char → Option (List PyValue × Bool × List Char)}
    (hitems : ∀ s vs t r, items s = some (vs, t, r) → PyValue.none ∈ vs →
      containsSub ("None".data) s = true) :
    ∀ s v r, parseValStep items s = some (v, r) → v = PyValue.none →
      containsSub ("None".data) s = true := by
  intro s v r h hv
  subst hv
  unfold parseValStep at h
  split at h
  · exact containsSub_of_startsWith (by rfl)
  · cases h
  · cases h
  · cases h
  · split at h
    · cases h
    · exact absurd h (by simp)
  · cases h
  · split at h
    · rename_i v0 r3 hin
      cases h
      exact containsSub_of_suffix (List.suffix_cons '(' _)
        (hitems _ _ _ _ hin (by simp))
    · rename_i vs b r3 hne hin
      cases h
    · exact absurd h (by simp)
  · rw [Option.map_eq_some'] at h
    obtain ⟨⟨pv, pr⟩, hp, heq⟩ := h
    injection heq with h1 h2
    exact absurd (negVal_eq_none h1) (parseNumber_spec hp).2
  · exact absurd rfl (parseNumber_spec h).2
  · split at h
    · rw [Option.map_eq_some'] at h
      obtain ⟨⟨pv, pr⟩, hp, heq⟩ := h
      injection heq with h1 h2
      exact PyValue.noConfusion h1
    · exact absurd rfl (parseNumber_spec h).2
  · exact absurd h (by simp)

theorem parseItemsStep_none
    {val : List Char → Option (PyValue × List Char)}
    {items : List Char → Option (List PyValue × Bool × List Char)}
    (hval_suffix : ∀ s v r, val s = some (v, r) → r <:+ s)
    (hval : ∀ s v r, val s = some (v, r) → v = PyValue.none →
      containsSub ("None".data) s = true)
    (hitems : ∀ s vs t r, items s = some (vs, t, r) → PyValue.none ∈ vs →
      containsSub ("None".data) s = true) :
    ∀ s vs t r, parseItemsStep val items s = some (vs, t, r) →
      PyValue.none ∈ vs → containsSub ("None".data) s = true := by
  intro s vs t r h hmem
  unfold parseItemsStep at h
  split at h
  · rename_i v r2 hp
    split at h
    · cases h
      have hv : PyValue.none = v := by simpa using hmem
      exact hval s v _ hp hv.symm
    · cases h
      have hv : PyValue.none = v := by simpa using hmem
      exact hval s v _ hp hv.symm
    · cases h
      have hv : PyValue.none = v := by simpa using hmem
      exact hval s v _ hp hv.symm
    · split at h
      · rename_i vs1 t1 r3 hin
        cases h
        rcases List.mem_cons.mp hmem with hv | hv
        · exact hval s v _ hp hv.symm
        · exact containsSub_of_suffix
            ((List.suffix_cons ',' r2).trans (hval_suffix s v _ hp))
            (hitems r2 _ _ _ hin hv)
      · exact absurd h (by simp)
  · rename_i v r0 hne hp
    cases h
    have hv : PyValue.none = v := by simpa using hmem
    exact hval s v _ hp hv.symm
  · exact absurd h (by simp)

theorem parse_none : ∀ fuel : Nat,
    (∀ s v r, parseVal fuel s = some (v, r) → v = PyValue.none →
      containsSub ("None".data) s = true) ∧
    (∀ s vs t r, parseItems fuel s = some (vs, t, r) → PyValue.none ∈ vs →
      containsSub ("None".data) s = true) := by
  intro fuel
  induction fuel with
  | zero =>
    constructor
    · intro s v r h
      exact absurd h (by simp [parseVal, parsers])
    · intro s vs t r h
      exact absurd h (by simp [parseItems, parsers])
  | succ n ih =>
    obtain ⟨ihV, ihI⟩ := ih
    constructor
    · exact parseValStep_none ihI
    · exact parseItemsStep_none (parse_suffix n).1 ihV ihI

theorem literal_eval_none {s : List Char}
    (h : literal_eval s = some PyValue.none) :
    containsSub ("None".data) s = true := by
  unfold literal_eval at h
  split at h
  · rename_i v hit
    cases h
    exact (parse_none _).2 s _ _ _ hit (by simp)
  · rename_i vs b hit hne
    cases h
  · exact absurd h (by simp)

/-- Claim C5 (amended): for a token with no quote character and none of the
boolean substrings, `_typer` returns `Null` exactly when the token CONTAINS
`None` as a substring (`none_check` is an `in`-containment test, not an exact
match); in every other branch of the inferencer no `None` value can arise
without that substring. -/
theorem claim_C5_amended (s : List Char)
    (h1 : string_check s = false) (h2 : bool_check s = false) :
    (typer s = some PyValue.none ↔ containsSub ("None".data) s = true) := by
  unfold typer
  simp only [h1, h2, Bool.false_eq_true, if_false]
  by_cases hn : none_check s = true
  · rw [if_pos hn]
    unfold none_check at hn
    exact ⟨fun _ => hn, fun _ => rfl⟩
  · rw [if_neg hn]
    have hnb : containsSub ("None".data) s = false := by
      cases hval : none_check s
      · exact hval
      · exact absurd hval hn
    constructor
    · intro hty
      exfalso
      split at hty
      · rw [literal_eval_none hty] at hnb
        exact Bool.true_eq_false ▸ Bool.noConfusion hnb
      · split at hty
        · rw [literal_eval_none hty] at hnb
          exact Bool.noConfusion hnb
        · split at hty
          · rw [literal_eval_none hty] at hnb
            exact Bool.noConfusion hnb
          · rw [Option.map_eq_some'] at hty
            obtain ⟨m, _, hm⟩ := hty
            exact PyValue.noConfusion hm
    · intro hcs
      rw [hcs] at hnb
      exact absurd hnb (by simp)

/-- Counterexample for claim C5 as stated: the token `Nonex` is not exactly
`None`, yet the inferencer returns `Null` for it — `none_check` is a
substring test. -/
theorem claim_C5_counterexample :
    string_check ("Nonex".data) = false ∧ bool_check ("Nonex".data) = false ∧
    typer ("Nonex".data) = some PyValue.none ∧
    ("Nonex".data : List Char) ≠ ("None".data : List Char) := by
  exact ⟨rfl, rfl, rfl, by decide⟩

/-- Witness for the amended claim C5: `None` itself types to `Null`, and a
token without the substring (here `xyz`) never does. -/
theorem claim_C5_witness :
    typer ("None".data) = some PyValue.none ∧
    ¬ (typer ("xyz".data) = some PyValue.none) := by
  constructor
  · exact (claim_C5_amended ("None".data) rfl rfl).mpr (by rfl)
  · intro h
    have := (claim_C5_amended ("xyz".data) rfl rfl).mp h
    exact absurd this (by decide)

end NTSA
